import Mathlib

/-!
Shallow embedding of the ttylag traffic shaper (src/shaper.go).

Times and durations are modelled as `Int` nanoseconds (Go `time.Time` /
`time.Duration`).  Bytes are opaque `Nat` values.  The destination writer is
modelled as a trace of successful writes plus an attempt counter; an oracle
`wfail : Nat → Bool` says whether the i-th write attempt to the destination
fails (Go `dst.Write` returning an error).  `time.Now()` observations made
inside the serial-mode write loop are supplied by an oracle `nows : Nat → Int`
indexed by the attempt counter (each serial-mode byte performs exactly one
`time.Now()` followed by one write attempt); `time.Now()` observations made at
the main loop's suspension points travel inside the events themselves.
Cancellation is modelled as being observed at the main multiplex (the `select`
in `Run`), which is where the code acts on it; `rng i n` models the i-th call
to `s.rng.Int63n n`, whose library contract gives a uniform value in `[0, n)`.
-/

namespace Ttylag

abbrev Byte := Nat
abbrev Buf := List Byte

/-- `ShaperConfig` (shaper.go lines 22-31): durations in nanoseconds. -/
structure ShaperConfig where
  delay : Int
  jitter : Int
  rate : Int
  burst : Int
  chunkSize : Int
  frameTime : Int
  seed : Int
  serialMode : Bool
deriving DecidableEq

/-- `delayedChunk` (shaper.go lines 34-37). -/
structure DelayedChunk where
  data : Buf
  dueTime : Int
deriving DecidableEq

/-- The destination writer: the trace of successful writes, in order, plus a
counter of all write attempts (used to index the failure oracle). -/
structure Dest where
  writes : List Buf
  attempts : Nat
deriving DecidableEq

/-- Errors that can come out of a write helper: a destination write error, or
the cancellation error produced while waiting in a rate governor. -/
inductive WErr where
  | dest
  | cancel
deriving DecidableEq

/-- The outcome of `Shaper.Run`. -/
inductive RunRes where
  | ok
  | errWrite
  | errCancelled
  | errRead
deriving DecidableEq

/-- One write attempt on the destination (`dst.Write(data)`): fails iff the
failure oracle says so at the current attempt index. -/
def attemptWrite (wfail : Nat → Bool) (dst : Dest) (data : Buf) :
    Dest × Option WErr :=
  if wfail dst.attempts then (⟨dst.writes, dst.attempts + 1⟩, some WErr.dest)
  else (⟨dst.writes ++ [data], dst.attempts + 1⟩, none)

/-- Fuel-indexed chunking loop (the `for len(data) > 0` loop of
`splitChunks`, shaper.go lines 113-123, and the piece loop of
`writeWithTokenBucket`, lines 323-339): each round takes `min c (len data)`
elements.  The fuel equals the initial length at every call site; the loop is
only ever entered with `c ≥ 1` (the Go loop would not terminate otherwise). -/
def chunkEveryAux (c : Nat) : Nat → Buf → List Buf
  | _, [] => []
  | 0, _ :: _ => []
  | fuel + 1, x :: xs => (x :: xs.take (c - 1)) :: chunkEveryAux c fuel (xs.drop (c - 1))

def chunkEvery (c : Nat) (l : Buf) : List Buf :=
  chunkEveryAux c l.length l

/-- `Shaper.splitChunks` (shaper.go lines 107-125). -/
def splitChunks (chunkSize : Int) (data : Buf) : List Buf :=
  if chunkSize ≤ 0 ∨ (data.length : Int) ≤ chunkSize then [data]
  else chunkEvery chunkSize.toNat data

/-- The limiter made by `NewShaper` (shaper.go lines 64-82): `some burst`
iff `rate > 0` and not serial mode, with the auto-burst rule for
`cfg.burst = 0`.  Go `/` on positive int64 is truncated division. -/
def limiterBurst (cfg : ShaperConfig) : Option Int :=
  if 0 < cfg.rate ∧ cfg.serialMode = false then
    some (if cfg.burst = 0 then
      let b1 := Int.tdiv cfg.rate 10
      let b2 := if 0 < cfg.chunkSize ∧ b1 < cfg.chunkSize then cfg.chunkSize else b1
      let b3 := if b2 < 1 then 1 else b2
      if 65536 < b3 then 65536 else b3
    else cfg.burst)
  else none

/-- `randomJitter` (shaper.go lines 93-103): when `jitter ≠ 0` it consumes one
draw `rng i (2*jitter)` (modelling `s.rng.Int63n(jitterRange)`) and returns
`draw - jitter` together with the next draw index; when `jitter = 0` it
returns 0 without touching the RNG. -/
def randomJitter (jitter : Int) (rng : Nat → Int → Int) (i : Nat) : Int × Nat :=
  if jitter = 0 then (0, i)
  else (rng i (2 * jitter) - jitter, i + 1)

/-- Time per byte on the simulated wire (shaper.go line 284).  The source
computes `time.Duration(float64(time.Second) / float64(rate))`; for every
`rate` with `|rate| ≤ 2^53` the float64 quotient rounds to a value whose
truncation equals truncated integer division, so we use `Int.tdiv`. -/
def byteTime (rate : Int) : Int := Int.tdiv 1000000000 rate

/-- One `wireFreeAt` update (shaper.go lines 286-293): clamp forward to `now`
if the wire has been idle, then advance by `byteTime`. -/
def wireStep (bt wfa now : Int) : Int := max wfa now + bt

/-- `writeWithWireSerialization` (shaper.go lines 274-311): per byte, check
cancellation, update `wireFreeAt`, sleep (timing only), write a single byte.
Returns the destination, the final `wireFreeAt`, and an error if any. -/
def writeWireSerial (wfail : Nat → Bool) (nows : Nat → Int) (bt : Int)
    (cancelled : Bool) (dst : Dest) (wfa : Int) : Buf → Dest × Int × Option WErr
  | [] => (dst, wfa, none)
  | b :: rest =>
    if cancelled then (dst, wfa, some WErr.cancel)
    else
      let wfa1 := wireStep bt wfa (nows dst.attempts)
      match attemptWrite wfail dst [b] with
      | (dst1, none) => writeWireSerial wfail nows bt cancelled dst1 wfa1 rest
      | (dst1, some e) => (dst1, wfa1, some e)

/-- The piece loop of `writeWithTokenBucket` (shaper.go lines 323-339):
`WaitN` fails with the cancellation error when the context is cancelled,
otherwise the piece is written; stop at the first error. -/
def writePieces (wfail : Nat → Bool) (cancelled : Bool) (dst : Dest) :
    List Buf → Dest × Option WErr
  | [] => (dst, none)
  | p :: ps =>
    if cancelled then (dst, some WErr.cancel)
    else
      match attemptWrite wfail dst p with
      | (dst1, none) => writePieces wfail cancelled dst1 ps
      | (dst1, some e) => (dst1, some e)

/-- `writeWithRateLimit` (shaper.go lines 258-269) together with
`writeWithTokenBucket` (lines 315-341): `rate = 0` writes straight through;
serial mode uses the wire serializer; otherwise the token bucket splits the
data into pieces no larger than the limiter burst (a nil limiter, which in
this branch means `rate < 0`, writes straight through). -/
def writeWithRateLimit (cfg : ShaperConfig) (wfail : Nat → Bool)
    (nows : Nat → Int) (cancelled : Bool) (dst : Dest) (wfa : Int)
    (data : Buf) : Dest × Int × Option WErr :=
  if cfg.rate = 0 then
    match attemptWrite wfail dst data with
    | (dst1, e) => (dst1, wfa, e)
  else if cfg.serialMode then
    writeWireSerial wfail nows (byteTime cfg.rate) cancelled dst wfa data
  else
    match limiterBurst cfg with
    | none =>
      match attemptWrite wfail dst data with
      | (dst1, e) => (dst1, wfa, e)
    | some b =>
      match writePieces wfail cancelled dst (chunkEvery b.toNat data) with
      | (dst1, e) => (dst1, wfa, e)

/-- The inner `for _, piece := range pieces` loop shared by
`processReadyChunks` (shaper.go lines 239-250, `FrameTime = 0` branch) and
`drainQueue` (lines 363-371): write each piece, stop at the first error. -/
def writePiecesRL (cfg : ShaperConfig) (wfail : Nat → Bool) (nows : Nat → Int)
    (cancelled : Bool) (dst : Dest) (wfa : Int) :
    List Buf → Dest × Int × Option WErr
  | [] => (dst, wfa, none)
  | p :: ps =>
    match writeWithRateLimit cfg wfail nows cancelled dst wfa p with
    | (dst1, wfa1, none) => writePiecesRL cfg wfail nows cancelled dst1 wfa1 ps
    | (dst1, wfa1, some e) => (dst1, wfa1, some e)

/-- `processReadyChunks` (shaper.go lines 231-253): pop chunks from the head
while `dueTime.Before(now)` (strictly earlier than `now`), split each into
pieces, and either append the pieces to the frame buffer (when framing is on)
or write them through the rate governor.  A write error is swallowed: the
function returns with the popped chunk's remaining pieces dropped and the
rest of the queue intact (lines 245-248). -/
def processReadyChunks (cfg : ShaperConfig) (wfail : Nat → Bool)
    (nows : Nat → Int) (cancelled : Bool) (now : Int) :
    List DelayedChunk → Buf → Dest → Int →
    List DelayedChunk × Buf × Dest × Int
  | [], fb, dst, wfa => ([], fb, dst, wfa)
  | c :: rest, fb, dst, wfa =>
    if c.dueTime < now then
      let pieces := splitChunks cfg.chunkSize c.data
      if 0 < cfg.frameTime then
        processReadyChunks cfg wfail nows cancelled now rest
          (pieces.foldl (· ++ ·) fb) dst wfa
      else
        match writePiecesRL cfg wfail nows cancelled dst wfa pieces with
        | (dst1, wfa1, none) =>
          processReadyChunks cfg wfail nows cancelled now rest fb dst1 wfa1
        | (dst1, wfa1, some _) => (rest, fb, dst1, wfa1)
    else (c :: rest, fb, dst, wfa)

/-- The loop body of `drainQueue` (shaper.go lines 350-381) after the
`drainCtx := context.Background()` line: every chunk is processed in enqueue
order (the sleep until `dueTime` is timing only), pieces are framed or
written with a never-cancelled context, a write error aborts the drain, and
finally a non-empty frame buffer is flushed. -/
def drainLoop (cfg : ShaperConfig) (wfail : Nat → Bool) (nows : Nat → Int) :
    List DelayedChunk → Buf → Dest → Int → Dest × Int × Option WErr
  | [], fb, dst, wfa =>
    if fb = [] then (dst, wfa, none)
    else writeWithRateLimit cfg wfail nows false dst wfa fb
  | c :: rest, fb, dst, wfa =>
    let pieces := splitChunks cfg.chunkSize c.data
    if 0 < cfg.frameTime then
      drainLoop cfg wfail nows rest (pieces.foldl (· ++ ·) fb) dst wfa
    else
      match writePiecesRL cfg wfail nows false dst wfa pieces with
      | (dst1, wfa1, none) => drainLoop cfg wfail nows rest fb dst1 wfa1
      | (dst1, wfa1, some e) => (dst1, wfa1, some e)

/-- `drainQueue` (shaper.go lines 345-382): it receives the run's context but
immediately replaces it with `context.Background()`, so the passed
cancellation state is ignored. -/
def drainQueue (cfg : ShaperConfig) (wfail : Nat → Bool) (nows : Nat → Int)
    (ctxCancelled : Bool) (q : List DelayedChunk) (fb : Buf) (dst : Dest)
    (wfa : Int) : Dest × Int × Option WErr :=
  drainLoop cfg wfail nows q fb dst wfa

/-- The three non-terminal events the main `select` (shaper.go lines 192-225)
can observe, each carrying the `time.Now()` values sampled while handling
it. -/
inductive Event where
  | read (now : Int) (data : Buf)
  | wake (now : Int)
  | tick
deriving DecidableEq

/-- How a run ends: the read channel closes cleanly (EOF), the context is
cancelled, or the reader reports a non-EOF error. -/
inductive Ending where
  | eof
  | cancelled
  | readError
deriving DecidableEq

/-- The mutable state of `Run` (shaper.go lines 160-176): the delay queue,
the frame buffer, the destination trace, serial-mode `wireFreeAt`, the RNG
draw index, and the wake timer's current target (`nextWake`). -/
structure RunState where
  queue : List DelayedChunk
  frameBuffer : Buf
  dst : Dest
  wfa : Int
  rngIdx : Nat
  nextWake : Option Int
deriving DecidableEq

def initState (wfa0 : Int) : RunState :=
  ⟨[], [], ⟨[], 0⟩, wfa0, 0, none⟩

/-- Top of each loop iteration (shaper.go lines 178-190): when the queue is
non-empty, the wake timer is reset to the head's due time; when it is empty
the timer is left alone. -/
def updateWake (st : RunState) : RunState :=
  match st.queue with
  | [] => st
  | c :: _ => { st with nextWake := some c.dueTime }

/-- One iteration of the main loop: the wake-timer reset followed by one arm
of the `select` (shaper.go lines 192-225).  Only the frame-tick arm can make
`Run` return an error (a write error on the frame flush); the release pass
swallows write errors. -/
def runStep (cfg : ShaperConfig) (wfail : Nat → Bool) (nows : Nat → Int)
    (rng : Nat → Int → Int) (st0 : RunState) (ev : Event) :
    RunState × Option WErr :=
  let st := updateWake st0
  match ev with
  | .read now data =>
    let j := randomJitter cfg.jitter rng st.rngIdx
    let total := max 0 (cfg.delay + j.1)
    ({ st with queue := st.queue ++ [⟨data, now + total⟩], rngIdx := j.2 }, none)
  | .wake now =>
    match processReadyChunks cfg wfail nows false now st.queue st.frameBuffer
        st.dst st.wfa with
    | (q, fb, dst, wfa) =>
      ({ st with queue := q, frameBuffer := fb, dst := dst, wfa := wfa }, none)
  | .tick =>
    if st.frameBuffer = [] then (st, none)
    else
      match writeWithRateLimit cfg wfail nows false st.dst st.wfa
          st.frameBuffer with
      | (dst, wfa, none) =>
        ({ st with frameBuffer := [], dst := dst, wfa := wfa }, none)
      | (dst, wfa, some e) => ({ st with dst := dst, wfa := wfa }, some e)

/-- Iterate `runStep` over the schedule of non-terminal events, stopping at
the first error (which `Run` returns, shaper.go lines 220-222). -/
def runEvents (cfg : ShaperConfig) (wfail : Nat → Bool) (nows : Nat → Int)
    (rng : Nat → Int → Int) : RunState → List Event →
    RunState × Option WErr
  | st, [] => (st, none)
  | st, ev :: evs =>
    match runStep cfg wfail nows rng st ev with
    | (st1, none) => runEvents cfg wfail nows rng st1 evs
    | (st1, some e) => (st1, some e)

def werrRes : WErr → RunRes
  | .dest => .errWrite
  | .cancel => .errCancelled

/-- `Shaper.Run` (shaper.go lines 130-227): process the event schedule, then
the terminal select arm: clean EOF drains (passing the possibly-cancelled
context, which the drain ignores) and returns success unless the drain hits
a write error; cancellation returns `ctx.Err()`; a reader error is
returned as is. -/
def runShaper (cfg : ShaperConfig) (wfail : Nat → Bool) (nows : Nat → Int)
    (rng : Nat → Int → Int) (wfa0 : Int) (events : List Event)
    (ending : Ending) (cancelAtEof : Bool) : Dest × RunRes :=
  match runEvents cfg wfail nows rng (initState wfa0) events with
  | (st, some e) => (st.dst, werrRes e)
  | (st, none) =>
    match ending with
    | .eof =>
      match drainQueue cfg wfail nows cancelAtEof st.queue st.frameBuffer
          st.dst st.wfa with
      | (dst, _, none) => (dst, RunRes.ok)
      | (dst, _, some e) => (dst, werrRes e)
    | .cancelled => (st.dst, RunRes.errCancelled)
    | .readError => (st.dst, RunRes.errRead)

/-- Concatenation of the buffers delivered by the reader goroutine, in
order: the source input as seen by the shaper. -/
def readBytes : List Event → Buf
  | [] => []
  | Event.read _ d :: evs => d ++ readBytes evs
  | Event.wake _ :: evs => readBytes evs
  | Event.tick :: evs => readBytes evs

/-- Seed selection in `NewShaper` (shaper.go lines 56-59): a zero configured
seed is replaced by the wall clock. -/
def effectiveSeed (cfgSeed wallClock : Int) : Int :=
  if cfgSeed = 0 then wallClock else cfgSeed

def lcgNext (x : Int) : Int :=
  (6364136223846793005 * x + 1442695040888963407) % 9223372036854775808

def lcgIter (seed : Int) : Nat → Int
  | 0 => lcgNext seed
  | n + 1 => lcgNext (lcgIter seed n)

/-- Modelled from the spec: `rand.New(rand.NewSource(seed))` and `Int63n`
(shaper.go lines 60 and 101) are Go standard-library code, not part of this
repository.  The spec's load-bearing property is that the source is a
deterministic PRNG seeded by `seed` and that `Int63n n` lands in `[0, n)`; we
model the stream as an LCG reduced modulo the bound. -/
def mkRng (seed : Int) (i : Nat) (n : Int) : Int :=
  if n ≤ 0 then 0 else lcgIter seed i % n

/-- The claimed law of `wireFreeAt` over `n` transmitted bytes starting at
attempt index `i`: clamp forward to the observed `now`, then advance by
exactly `bt`, once per byte. -/
def wfaRun (bt : Int) (nows : Nat → Int) : Nat → Int → Nat → Int
  | _, wfa, 0 => wfa
  | i, wfa, n + 1 => wfaRun bt nows (i + 1) (wireStep bt wfa (nows i)) n

end Ttylag

namespace Ttylag

/-! ### Chunking lemmas -/

theorem foldl_append_eq_flatten (ps : List Buf) :
    ∀ fb : Buf, ps.foldl (· ++ ·) fb = fb ++ ps.flatten := by
  induction ps with
  | nil => intro fb; simp
  | cons p ps ih => intro fb; simp [ih, List.append_assoc]

theorem chunkEveryAux_flatten (c : Nat) :
    ∀ (f : Nat) (l : Buf), l.length ≤ f → (chunkEveryAux c f l).flatten = l := by
  intro f
  induction f with
  | zero =>
    intro l hl
    cases l with
    | nil => simp [chunkEveryAux]
    | cons x xs => simp at hl
  | succ n ih =>
    intro l hl
    cases l with
    | nil => simp [chunkEveryAux]
    | cons x xs =>
      have hd : (xs.drop (c - 1)).length ≤ n := by
        simp only [List.length_drop]
        simp only [List.length_cons] at hl
        omega
      simp only [chunkEveryAux, List.flatten_cons, ih _ hd]
      simp [List.take_append_drop]

theorem chunkEvery_flatten (c : Nat) (l : Buf) : (chunkEvery c l).flatten = l :=
  chunkEveryAux_flatten c l.length l le_rfl

theorem chunkEveryAux_mem_length_le (c : Nat) :
    ∀ (f : Nat) (l p : Buf), p ∈ chunkEveryAux c f l → p.length ≤ l.length := by
  intro f
  induction f with
  | zero =>
    intro l p hp
    cases l with
    | nil => simp [chunkEveryAux] at hp
    | cons x xs => simp [chunkEveryAux] at hp
  | succ n ih =>
    intro l p hp
    cases l with
    | nil => simp [chunkEveryAux] at hp
    | cons x xs =>
      simp only [chunkEveryAux, List.mem_cons] at hp
      rcases hp with hp | hp
      · subst hp
        simp only [List.length_cons, List.length_take]
        omega
      · have := ih _ _ hp
        simp only [List.length_drop] at this
        simp only [List.length_cons]
        omega

theorem chunkEveryAux_mem_length_le_c (c : Nat) (hc : 1 ≤ c) :
    ∀ (f : Nat) (l p : Buf), p ∈ chunkEveryAux c f l → p.length ≤ c := by
  intro f
  induction f with
  | zero =>
    intro l p hp
    cases l with
    | nil => simp [chunkEveryAux] at hp
    | cons x xs => simp [chunkEveryAux] at hp
  | succ n ih =>
    intro l p hp
    cases l with
    | nil => simp [chunkEveryAux] at hp
    | cons x xs =>
      simp only [chunkEveryAux, List.mem_cons] at hp
      rcases hp with hp | hp
      · subst hp
        simp only [List.length_cons, List.length_take]
        omega
      · exact ih _ _ hp

theorem chunkEveryAux_ne_nil (c : Nat) (f : Nat) (l : Buf) (hl : l ≠ [])
    (hf : l.length ≤ f) : chunkEveryAux c f l ≠ [] := by
  cases l with
  | nil => exact absurd rfl hl
  | cons x xs =>
    cases f with
    | zero => simp at hf
    | succ n => simp [chunkEveryAux]

theorem chunkEveryAux_dropLast (c : Nat) (hc : 1 ≤ c) :
    ∀ (f : Nat) (l p : Buf), l.length ≤ f →
      p ∈ (chunkEveryAux c f l).dropLast → p.length = c := by
  intro f
  induction f with
  | zero =>
    intro l p hf hp
    cases l with
    | nil => simp [chunkEveryAux] at hp
    | cons x xs => simp at hf
  | succ n ih =>
    intro l p hf hp
    cases l with
    | nil => simp [chunkEveryAux] at hp
    | cons x xs =>
      simp only [chunkEveryAux] at hp
      by_cases hrest : xs.drop (c - 1) = []
      · rw [hrest] at hp
        cases hn : chunkEveryAux c n ([] : Buf) with
        | nil => rw [hn] at hp; simp at hp
        | cons a t => simp [chunkEveryAux] at hn
      · have hlen : (xs.drop (c - 1)).length ≤ n := by
          simp only [List.length_drop]
          simp only [List.length_cons] at hf
          omega
        have hne := chunkEveryAux_ne_nil c n _ hrest hlen
        rw [List.dropLast_cons_of_ne_nil hne] at hp
        rcases List.mem_cons.mp hp with hp | hp
        · subst hp
          have : c - 1 ≤ xs.length := by
            by_contra hgt
            push_neg at hgt
            exact hrest (List.drop_eq_nil_of_le (by omega))
          simp only [List.length_cons, List.length_take]
          omega
        · exact ih _ _ hlen hp

theorem splitChunks_flatten (cs : Int) (d : Buf) :
    (splitChunks cs d).flatten = d := by
  unfold splitChunks
  split
  · simp
  · exact chunkEvery_flatten _ _

theorem splitChunks_mem_length (cs : Int) (hcs : 0 < cs) (d p : Buf)
    (hp : p ∈ splitChunks cs d) : (p.length : Int) ≤ cs := by
  unfold splitChunks at hp
  split at hp
  · next h =>
    rcases h with h | h
    · omega
    · simp only [List.mem_singleton] at hp
      subst hp
      exact h
  · have hc1 : 1 ≤ cs.toNat := by omega
    have := chunkEveryAux_mem_length_le_c cs.toNat hc1 d.length d p hp
    omega

theorem splitChunks_dropLast (cs : Int) (hcs : 0 < cs) (d p : Buf)
    (hd : cs < (d.length : Int)) (hp : p ∈ (splitChunks cs d).dropLast) :
    (p.length : Int) = cs := by
  unfold splitChunks at hp
  split at hp
  · next h =>
    rcases h with h | h
    · omega
    · omega
  · have hc1 : 1 ≤ cs.toNat := by omega
    have := chunkEveryAux_dropLast cs.toNat hc1 d.length d p le_rfl hp
    omega

end Ttylag

namespace Ttylag

/-! ### Write-layer lemmas, all destination writes succeeding -/

theorem flatten_map_singleton (data : Buf) :
    (data.map (fun b => [b])).flatten = data := by
  induction data with
  | nil => simp
  | cons b rest ih => simp [ih]

theorem attemptWrite_ok (wfail : Nat → Bool) (hw : ∀ i, wfail i = false)
    (dst : Dest) (d : Buf) :
    attemptWrite wfail dst d = (⟨dst.writes ++ [d], dst.attempts + 1⟩, none) := by
  simp [attemptWrite, hw]

theorem writePieces_ok (wfail : Nat → Bool) (hw : ∀ i, wfail i = false) :
    ∀ (ps : List Buf) (dst : Dest),
      writePieces wfail false dst ps =
        (⟨dst.writes ++ ps, dst.attempts + ps.length⟩, none) := by
  intro ps
  induction ps with
  | nil => intro dst; simp [writePieces]
  | cons p ps ih =>
    intro dst
    have h1 := ih ⟨dst.writes ++ [p], dst.attempts + 1⟩
    simp only [writePieces, Bool.false_eq_true, if_false,
      attemptWrite_ok wfail hw, h1]
    simp [List.append_assoc]
    omega

theorem writeWireSerial_ok (wfail : Nat → Bool) (nows : Nat → Int) (bt : Int)
    (hw : ∀ i, wfail i = false) :
    ∀ (data : Buf) (dst : Dest) (wfa : Int),
      writeWireSerial wfail nows bt false dst wfa data =
        (⟨dst.writes ++ data.map (fun b => [b]), dst.attempts + data.length⟩,
          wfaRun bt nows dst.attempts wfa data.length, none) := by
  intro data
  induction data with
  | nil => intro dst wfa; simp [writeWireSerial, wfaRun]
  | cons b rest ih =>
    intro dst wfa
    have h1 := ih ⟨dst.writes ++ [[b]], dst.attempts + 1⟩
      (wireStep bt wfa (nows dst.attempts))
    simp only [writeWireSerial, Bool.false_eq_true, if_false,
      attemptWrite_ok wfail hw, h1]
    simp only [List.length_cons, List.map_cons, wfaRun]
    simp [List.append_assoc]
    omega

theorem wfaRun_mono (bt : Int) (nows : Nat → Int) (hbt : 0 ≤ bt) :
    ∀ (n : Nat) (i : Nat) (wfa : Int), wfa ≤ wfaRun bt nows i wfa n := by
  intro n
  induction n with
  | zero => intro i wfa; simp [wfaRun]
  | succ n ih =>
    intro i wfa
    have h1 : wfa ≤ wireStep bt wfa (nows i) := by
      have := le_max_left wfa (nows i)
      simp only [wireStep]
      omega
    exact le_trans h1 (ih (i + 1) (wireStep bt wfa (nows i)))

theorem writeWithRateLimit_ok (cfg : ShaperConfig) (wfail : Nat → Bool)
    (nows : Nat → Int) (hw : ∀ i, wfail i = false) (dst : Dest) (wfa : Int)
    (data : Buf) :
    ∃ (P : List Buf) (a' : Nat) (wfa' : Int),
      writeWithRateLimit cfg wfail nows false dst wfa data =
        (⟨dst.writes ++ P, a'⟩, wfa', none) ∧
      P.flatten = data ∧
      (∀ p ∈ P, p.length ≤ data.length) ∧
      (cfg.serialMode = true → cfg.rate ≠ 0 → ∀ p ∈ P, p.length = 1) := by
  unfold writeWithRateLimit
  by_cases hr : cfg.rate = 0
  · refine ⟨[data], dst.attempts + 1, wfa, ?_, by simp, ?_, ?_⟩
    · simp [hr, attemptWrite_ok wfail hw]
    · intro p hp
      simp only [List.mem_singleton] at hp
      simp [hp]
    · intro _ hr0
      exact absurd hr hr0
  · by_cases hs : cfg.serialMode
    · refine ⟨data.map (fun b => [b]), dst.attempts + data.length,
        wfaRun (byteTime cfg.rate) nows dst.attempts wfa data.length, ?_, ?_, ?_, ?_⟩
      · simp [hr, hs, writeWireSerial_ok wfail nows _ hw]
      · exact flatten_map_singleton data
      · intro p hp
        rcases List.mem_map.mp hp with ⟨b, hb, rfl⟩
        have : 0 < data.length := List.length_pos.mpr (List.ne_nil_of_mem hb)
        simp
        omega
      · intro _ _ p hp
        rcases List.mem_map.mp hp with ⟨b, _, rfl⟩
        simp
    · cases hlb : limiterBurst cfg with
      | none =>
        refine ⟨[data], dst.attempts + 1, wfa, ?_, by simp, ?_, ?_⟩
        · simp [hr, hs, hlb, attemptWrite_ok wfail hw]
        · intro p hp
          simp only [List.mem_singleton] at hp
          simp [hp]
        · intro hs' _
          simp [hs'] at hs
      | some b =>
        refine ⟨chunkEvery b.toNat data,
          dst.attempts + (chunkEvery b.toNat data).length, wfa, ?_, ?_, ?_, ?_⟩
        · simp [hr, hs, hlb, writePieces_ok wfail hw]
        · exact chunkEvery_flatten _ _
        · intro p hp
          exact chunkEveryAux_mem_length_le b.toNat data.length data p hp
        · intro hs' _
          simp [hs'] at hs

end Ttylag

namespace Ttylag

theorem writePiecesRL_ok (cfg : ShaperConfig) (wfail : Nat → Bool)
    (nows : Nat → Int) (hw : ∀ i, wfail i = false) :
    ∀ (ps : List Buf) (dst : Dest) (wfa : Int),
      ∃ (W : List Buf) (a' : Nat) (wfa' : Int),
        writePiecesRL cfg wfail nows false dst wfa ps =
          (⟨dst.writes ++ W, a'⟩, wfa', none) ∧
        W.flatten = ps.flatten ∧
        (∀ w ∈ W, ∃ p ∈ ps, w.length ≤ p.length) ∧
        (cfg.serialMode = true → cfg.rate ≠ 0 → ∀ w ∈ W, w.length = 1) := by
  intro ps
  induction ps with
  | nil =>
    intro dst wfa
    exact ⟨[], dst.attempts, wfa, by simp [writePiecesRL], by simp, by simp,
      fun _ _ w hw' => absurd hw' (List.not_mem_nil w)⟩
  | cons p ps ih =>
    intro dst wfa
    obtain ⟨P, a1, wfa1, heq, hflat, hle, hser⟩ :=
      writeWithRateLimit_ok cfg wfail nows hw dst wfa p
    obtain ⟨W2, a2, wfa2, heq2, hflat2, hle2, hser2⟩ :=
      ih ⟨dst.writes ++ P, a1⟩ wfa1
    refine ⟨P ++ W2, a2, wfa2, ?_, ?_, ?_, ?_⟩
    · simp only [writePiecesRL, heq, heq2, List.append_assoc]
    · simp [hflat, hflat2]
    · intro w hmem
      rcases List.mem_append.mp hmem with hmem | hmem
      · exact ⟨p, List.mem_cons_self p ps, hle w hmem⟩
      · obtain ⟨q, hq, hql⟩ := hle2 w hmem
        exact ⟨q, List.mem_cons_of_mem p hq, hql⟩
    · intro h1 h2 w hmem
      rcases List.mem_append.mp hmem with hmem | hmem
      · exact hser h1 h2 w hmem
      · exact hser2 h1 h2 w hmem

theorem processReadyChunks_ok (cfg : ShaperConfig) (wfail : Nat → Bool)
    (nows : Nat → Int) (now : Int) (hw : ∀ i, wfail i = false) :
    ∀ (q : List DelayedChunk) (fb : Buf) (dst : Dest) (wfa : Int),
      ∃ (W : List Buf) (a' : Nat) (wfa' : Int),
        processReadyChunks cfg wfail nows false now q fb dst wfa =
          (q.dropWhile (fun c => decide (c.dueTime < now)),
           (if 0 < cfg.frameTime then
              fb ++ ((q.takeWhile (fun c => decide (c.dueTime < now))).map
                DelayedChunk.data).flatten
            else fb),
           ⟨dst.writes ++ W, a'⟩, wfa') ∧
        W.flatten = (if 0 < cfg.frameTime then []
          else ((q.takeWhile (fun c => decide (c.dueTime < now))).map
            DelayedChunk.data).flatten) ∧
        (0 < cfg.frameTime → W = []) ∧
        (0 < cfg.chunkSize → ∀ w ∈ W, (w.length : Int) ≤ cfg.chunkSize) ∧
        (cfg.serialMode = true → cfg.rate ≠ 0 → ∀ w ∈ W, w.length = 1) := by
  intro q
  induction q with
  | nil =>
    intro fb dst wfa
    refine ⟨[], dst.attempts, wfa, ?_, by simp, by simp, by simp, by simp⟩
    simp [processReadyChunks]
  | cons c rest ih =>
    intro fb dst wfa
    by_cases hdue : c.dueTime < now
    · by_cases hft : 0 < cfg.frameTime
      · obtain ⟨W, a', wfa', heq, hflat, hWnil, hchunk, hser⟩ :=
          ih (fb ++ (splitChunks cfg.chunkSize c.data).flatten) dst wfa
        refine ⟨W, a', wfa', ?_, ?_, hWnil, hchunk, hser⟩
        · simp only [processReadyChunks, if_pos hdue, if_pos hft,
            foldl_append_eq_flatten, heq]
          simp [hdue, hft, splitChunks_flatten, List.append_assoc]
        · simp only [hflat]
          simp [hft]
      · obtain ⟨W1, a1, wfa1, heq1, hflat1, hle1, hser1⟩ :=
          writePiecesRL_ok cfg wfail nows hw
            (splitChunks cfg.chunkSize c.data) dst wfa
        obtain ⟨W2, a2, wfa2, heq2, hflat2, hWnil2, hchunk2, hser2⟩ :=
          ih fb ⟨dst.writes ++ W1, a1⟩ wfa1
        refine ⟨W1 ++ W2, a2, wfa2, ?_, ?_, ?_, ?_, ?_⟩
        · simp only [processReadyChunks, if_pos hdue, if_neg hft, heq1, heq2,
            List.append_assoc]
          simp [hdue, hft]
        · simp only [List.flatten_append, hflat1, hflat2,
            splitChunks_flatten, if_neg hft]
          simp [hdue]
        · intro h; exact absurd h hft
        · intro hcs w hmem
          rcases List.mem_append.mp hmem with hmem | hmem
          · obtain ⟨p, hp, hpl⟩ := hle1 w hmem
            have := splitChunks_mem_length cfg.chunkSize hcs c.data p hp
            omega
          · exact hchunk2 hcs w hmem
        · intro h1 h2 w hmem
          rcases List.mem_append.mp hmem with hmem | hmem
          · exact hser1 h1 h2 w hmem
          · exact hser2 h1 h2 w hmem
    · refine ⟨[], dst.attempts, wfa, ?_, by simp [hdue], by simp, by simp,
        by simp⟩
      simp [processReadyChunks, hdue]

theorem drainLoop_ok (cfg : ShaperConfig) (wfail : Nat → Bool)
    (nows : Nat → Int) (hw : ∀ i, wfail i = false) :
    ∀ (q : List DelayedChunk) (fb : Buf) (dst : Dest) (wfa : Int),
      ∃ (W : List Buf) (a' : Nat) (wfa' : Int),
        drainLoop cfg wfail nows q fb dst wfa =
          (⟨dst.writes ++ W, a'⟩, wfa', none) ∧
        W.flatten = (if 0 < cfg.frameTime then
            fb ++ ((q.map DelayedChunk.data)).flatten
          else ((q.map DelayedChunk.data)).flatten ++ fb) ∧
        (cfg.serialMode = true → cfg.rate ≠ 0 → ∀ w ∈ W, w.length = 1) ∧
        (0 < cfg.chunkSize → cfg.frameTime ≤ 0 → fb = [] →
          ∀ w ∈ W, (w.length : Int) ≤ cfg.chunkSize) := by
  intro q
  induction q with
  | nil =>
    intro fb dst wfa
    by_cases hfb : fb = []
    · refine ⟨[], dst.attempts, wfa, ?_, by simp [hfb], by simp, by simp⟩
      simp [drainLoop, hfb]
    · obtain ⟨P, a', wfa', heq, hflat, _, hser⟩ :=
        writeWithRateLimit_ok cfg wfail nows hw dst wfa fb
      refine ⟨P, a', wfa', ?_, by simp [hflat], hser, ?_⟩
      · simp [drainLoop, hfb, heq]
      · intro _ _ h
        exact absurd h hfb
  | cons c rest ih =>
    intro fb dst wfa
    by_cases hft : 0 < cfg.frameTime
    · obtain ⟨W, a', wfa', heq, hflat, hser, hchunk⟩ :=
        ih (fb ++ (splitChunks cfg.chunkSize c.data).flatten) dst wfa
      refine ⟨W, a', wfa', ?_, ?_, hser, ?_⟩
      · simp only [drainLoop, if_pos hft, foldl_append_eq_flatten, heq]
      · simp only [hflat, if_pos hft, splitChunks_flatten]
        simp [List.append_assoc]
      · intro _ habs
        omega
    · obtain ⟨W1, a1, wfa1, heq1, hflat1, hle1, hser1⟩ :=
        writePiecesRL_ok cfg wfail nows hw
          (splitChunks cfg.chunkSize c.data) dst wfa
      obtain ⟨W2, a2, wfa2, heq2, hflat2, hser2, hchunk2⟩ :=
        ih fb ⟨dst.writes ++ W1, a1⟩ wfa1
      refine ⟨W1 ++ W2, a2, wfa2, ?_, ?_, ?_, ?_⟩
      · simp only [drainLoop, if_neg hft, heq1, heq2, List.append_assoc]
      · simp only [List.flatten_append, hflat1, hflat2, if_neg hft,
          splitChunks_flatten]
        simp [List.append_assoc]
      · intro h1 h2 w hmem
        rcases List.mem_append.mp hmem with hmem | hmem
        · exact hser1 h1 h2 w hmem
        · exact hser2 h1 h2 w hmem
      · intro hcs hft0 hfb w hmem
        rcases List.mem_append.mp hmem with hmem | hmem
        · obtain ⟨p, hp, hpl⟩ := hle1 w hmem
          have := splitChunks_mem_length cfg.chunkSize hcs c.data p hp
          omega
        · exact hchunk2 hcs hft0 hfb w hmem

end Ttylag

namespace Ttylag

/-! ### Main-loop lemmas -/

theorem updateWake_queue (st : RunState) : (updateWake st).queue = st.queue := by
  cases h : st.queue <;> simp [updateWake, h]

theorem updateWake_frameBuffer (st : RunState) :
    (updateWake st).frameBuffer = st.frameBuffer := by
  cases h : st.queue <;> simp [updateWake, h]

theorem updateWake_dst (st : RunState) : (updateWake st).dst = st.dst := by
  cases h : st.queue <;> simp [updateWake, h]

theorem updateWake_wfa (st : RunState) : (updateWake st).wfa = st.wfa := by
  cases h : st.queue <;> simp [updateWake, h]

theorem updateWake_rngIdx (st : RunState) :
    (updateWake st).rngIdx = st.rngIdx := by
  cases h : st.queue <;> simp [updateWake, h]

/-- The run-loop invariant transfer for one event, when every destination
write succeeds: no error, the written-plus-buffered-plus-queued byte stream
is extended exactly by the bytes the event read, the frame buffer stays empty
when framing is off, and the new writes obey the serial-mode and chunk-size
write shapes. -/
theorem runStep_ok (cfg : ShaperConfig) (wfail : Nat → Bool)
    (nows : Nat → Int) (rng : Nat → Int → Int) (hw : ∀ i, wfail i = false)
    (st : RunState) (ev : Event)
    (hfb : cfg.frameTime ≤ 0 → st.frameBuffer = []) :
    ∃ st', runStep cfg wfail nows rng st ev = (st', none) ∧
      st'.dst.writes.flatten ++ st'.frameBuffer ++
          (st'.queue.map DelayedChunk.data).flatten
        = st.dst.writes.flatten ++ st.frameBuffer ++
            (st.queue.map DelayedChunk.data).flatten ++ readBytes [ev] ∧
      (cfg.frameTime ≤ 0 → st'.frameBuffer = []) ∧
      ∃ W, st'.dst.writes = st.dst.writes ++ W ∧
        (cfg.serialMode = true → cfg.rate ≠ 0 → ∀ w ∈ W, w.length = 1) ∧
        (0 < cfg.chunkSize → cfg.frameTime ≤ 0 →
          ∀ w ∈ W, (w.length : Int) ≤ cfg.chunkSize) := by
  cases ev with
  | read now data =>
    refine ⟨_, rfl, ?_, ?_, [], by simp [updateWake_dst], by simp, by simp⟩
    · simp [readBytes, updateWake_queue, updateWake_frameBuffer, updateWake_dst,
        List.append_assoc]
    · intro h
      simp only [updateWake_frameBuffer]
      exact hfb h
  | wake now =>
    obtain ⟨W, a', wfa', heq, hflat, hWnil, hchunk, hser⟩ :=
      processReadyChunks_ok cfg wfail nows now hw (updateWake st).queue
        (updateWake st).frameBuffer (updateWake st).dst (updateWake st).wfa
    refine ⟨{ updateWake st with
        queue := List.dropWhile (fun c => decide (c.dueTime < now))
          (updateWake st).queue,
        frameBuffer := if 0 < cfg.frameTime then
            (updateWake st).frameBuffer ++
              ((List.takeWhile (fun c => decide (c.dueTime < now))
                (updateWake st).queue).map DelayedChunk.data).flatten
          else (updateWake st).frameBuffer,
        dst := ⟨(updateWake st).dst.writes ++ W, a'⟩,
        wfa := wfa' }, ?_, ?_, ?_, W, ?_, hser, ?_⟩
    · simp only [runStep, heq]
    · simp only [updateWake_queue, updateWake_frameBuffer, updateWake_dst]
      by_cases hft : 0 < cfg.frameTime
      · have hW := hWnil hft
        subst hW
        simp only [if_pos hft, List.append_nil, readBytes, List.append_assoc]
        rw [← List.flatten_append, ← List.map_append,
          List.takeWhile_append_dropWhile]
      · simp only [if_neg hft, updateWake_queue] at hflat
        have h0 : st.frameBuffer = [] := hfb (by omega)
        simp only [if_neg hft, List.flatten_append, hflat, readBytes, h0,
          List.append_nil, List.nil_append, List.append_assoc]
        rw [← List.flatten_append, ← List.map_append,
          List.takeWhile_append_dropWhile]
    · intro h
      simp only [if_neg (by omega : ¬ 0 < cfg.frameTime),
        updateWake_frameBuffer]
      exact hfb h
    · simp [updateWake_dst]
    · intro h1 _
      exact hchunk h1
  | tick =>
    by_cases h0 : (updateWake st).frameBuffer = []
    · refine ⟨updateWake st, ?_, ?_, ?_, [], by simp [updateWake_dst],
        by simp, by simp⟩
      · simp only [runStep, if_pos h0]
      · simp only [updateWake_frameBuffer] at h0
        simp [readBytes, updateWake_queue, updateWake_frameBuffer,
          updateWake_dst, h0]
      · intro h
        simp only [updateWake_frameBuffer] at h0 ⊢
        exact h0
    · obtain ⟨P, a', wfa', heq, hflat, _, hser⟩ :=
        writeWithRateLimit_ok cfg wfail nows hw (updateWake st).dst
          (updateWake st).wfa (updateWake st).frameBuffer
      refine ⟨{ updateWake st with
          frameBuffer := [],
          dst := ⟨(updateWake st).dst.writes ++ P, a'⟩,
          wfa := wfa' },
          ?_, ?_, by simp, P, by simp [updateWake_dst], hser, ?_⟩
      · simp only [runStep, if_neg h0, heq]
      · simp only [updateWake_frameBuffer] at hflat
        simp only [List.flatten_append, readBytes, List.append_nil,
          updateWake_queue, updateWake_dst, hflat]
      · intro _ hft
        simp only [updateWake_frameBuffer] at h0
        exact absurd (hfb hft) h0
  

theorem runEvents_ok (cfg : ShaperConfig) (wfail : Nat → Bool)
    (nows : Nat → Int) (rng : Nat → Int → Int) (hw : ∀ i, wfail i = false) :
    ∀ (evs : List Event) (st : RunState),
      (cfg.frameTime ≤ 0 → st.frameBuffer = []) →
      ∃ st', runEvents cfg wfail nows rng st evs = (st', none) ∧
        st'.dst.writes.flatten ++ st'.frameBuffer ++
            (st'.queue.map DelayedChunk.data).flatten
          = st.dst.writes.flatten ++ st.frameBuffer ++
              (st.queue.map DelayedChunk.data).flatten ++ readBytes evs ∧
        (cfg.frameTime ≤ 0 → st'.frameBuffer = []) ∧
        ∃ W, st'.dst.writes = st.dst.writes ++ W ∧
          (cfg.serialMode = true → cfg.rate ≠ 0 → ∀ w ∈ W, w.length = 1) ∧
          (0 < cfg.chunkSize → cfg.frameTime ≤ 0 →
            ∀ w ∈ W, (w.length : Int) ≤ cfg.chunkSize) := by
  intro evs
  induction evs with
  | nil =>
    intro st hfb
    exact ⟨st, rfl, by simp [readBytes], hfb, [], by simp, by simp, by simp⟩
  | cons ev evs ih =>
    intro st hfb
    obtain ⟨st1, heq1, hinv1, hfb1, W1, hw1, hser1, hchunk1⟩ :=
      runStep_ok cfg wfail nows rng hw st ev hfb
    obtain ⟨st2, heq2, hinv2, hfb2, W2, hw2, hser2, hchunk2⟩ := ih st1 hfb1
    refine ⟨st2, ?_, ?_, hfb2, W1 ++ W2, ?_, ?_, ?_⟩
    · simp only [runEvents, heq1, heq2]
    · rw [hinv2, hinv1]
      have : readBytes (ev :: evs) = readBytes [ev] ++ readBytes evs := by
        cases ev <;> simp [readBytes]
      rw [this]
      simp [List.append_assoc]
    · rw [hw2, hw1, List.append_assoc]
    · intro h1 h2 w hmem
      rcases List.mem_append.mp hmem with hmem | hmem
      · exact hser1 h1 h2 w hmem
      · exact hser2 h1 h2 w hmem
    · intro h1 h2 w hmem
      rcases List.mem_append.mp hmem with hmem | hmem
      · exact hchunk1 h1 h2 w hmem
      · exact hchunk2 h1 h2 w hmem

end Ttylag

namespace Ttylag

/-! ### Concrete configurations used by witnesses and counterexamples -/

def cfgZero : ShaperConfig := ⟨0, 0, 0, 0, 0, 0, 1, false⟩

def cfgD : ShaperConfig := ⟨5, 0, 0, 0, 0, 0, 1, false⟩

def cfgS : ShaperConfig := ⟨0, 0, 100, 0, 0, 0, 1, true⟩

def cfgB : ShaperConfig := ⟨0, 0, 1000, 0, 0, 0, 1, false⟩

def cfgC : ShaperConfig := ⟨0, 0, 0, 0, 3, 0, 1, false⟩

def cfgJ : ShaperConfig := ⟨0, 2, 0, 0, 0, 0, 1, false⟩

def cfgSeeded : ShaperConfig := ⟨0, 3, 0, 0, 0, 0, 42, false⟩

def helloWorld : Buf := [104, 101, 108, 108, 111, 32, 119, 111, 114, 108, 100]

/-! ### Claims -/

/-- C10: chunk-split round trip — for every byte buffer `d` and every
`chunk_size` value (including 0 and values larger than the buffer), the
concatenation of the pieces returned by `splitChunks` equals `d`: splitting
never drops, duplicates, or reorders bytes. -/
theorem splitChunks_roundTrip (chunkSize : Int) (d : Buf) :
    (splitChunks chunkSize d).flatten = d :=
  splitChunks_flatten chunkSize d

/-- C6: auto-burst rule — for every config with `rate > 0`, `serial_mode`
false and `burst = 0`, the token-bucket burst is
`clamp(rate / 10, lo = max(1, chunk_size if chunk_size > 0 else 1),
hi = 65536)`. -/
theorem auto_burst_rule (cfg : ShaperConfig) (hr : 0 < cfg.rate)
    (hs : cfg.serialMode = false) (hb : cfg.burst = 0) :
    limiterBurst cfg = some (min (max (Int.tdiv cfg.rate 10)
      (max 1 (if 0 < cfg.chunkSize then cfg.chunkSize else 1))) 65536) := by
  have hcond : 0 < cfg.rate ∧ cfg.serialMode = false := ⟨hr, hs⟩
  simp only [limiterBurst, if_pos hcond, if_pos hb]
  congr 1
  generalize Int.tdiv cfg.rate 10 = t
  split_ifs <;> omega

/-- C6 witness: for `rate = 1000`, `burst = 0`, `chunk_size = 0` the limiter
burst is 100 bytes, the clamp formula's value. -/
theorem auto_burst_rule_witness :
    limiterBurst cfgB = some (min (max (Int.tdiv 1000 10)
      (max 1 (if (0 : Int) < 0 then (0 : Int) else 1))) 65536) :=
  auto_burst_rule cfgB (by decide) rfl rfl

/-- C4 counterexample: the release pass pops only chunks with
`due_time` strictly before `now` (`dueTime.Before(now)`, shaper.go line 233):
a chunk whose `due_time` equals the current time (both 5 here) is NOT
released in that pass, contrary to the claim's `head.due_time ≤ now()`. -/
theorem release_at_equal_due_not_released :
    processReadyChunks cfgZero (fun _ => false) (fun _ => 0) false 5
      [⟨[1], 5⟩] [] ⟨[], 0⟩ 0 = ([⟨[1], 5⟩], [], ⟨[], 0⟩, 0) := by decide

/-- C4 (amended): when the wake timer fires, chunks are popped from the head
of the delay queue while `head.due_time < now()` (strictly — a chunk whose
due time equals the current time is left for a later pass); popping stops at
the first not-yet-due head, and at the start of the next loop iteration the
wake timer is reset to the (new) head's due time. -/
theorem release_pass_strictly_due (cfg : ShaperConfig) (wfail : Nat → Bool)
    (nows : Nat → Int) (rng : Nat → Int → Int) (now : Int)
    (q : List DelayedChunk) (fb : Buf) (dst : Dest) (wfa : Int)
    (hw : ∀ i, wfail i = false) :
    (processReadyChunks cfg wfail nows false now q fb dst wfa).1
      = q.dropWhile (fun c => decide (c.dueTime < now)) ∧
    (∀ (st : RunState) (ev : Event) (c : DelayedChunk)
        (rest : List DelayedChunk), st.queue = c :: rest →
      ((runStep cfg wfail nows rng st ev).1).nextWake = some c.dueTime) := by
  constructor
  · obtain ⟨W, a', wfa', heq, -, -, -, -⟩ :=
      processReadyChunks_ok cfg wfail nows now hw q fb dst wfa
    simp [heq]
  · intro st ev c rest hq
    have h1 : (updateWake st).nextWake = some c.dueTime := by
      simp [updateWake, hq]
    cases ev with
    | read nw data => simpa [runStep] using h1
    | wake nw =>
      simp only [runStep]
      rcases hres : processReadyChunks cfg wfail nows false nw
          (updateWake st).queue (updateWake st).frameBuffer
          (updateWake st).dst (updateWake st).wfa with ⟨q1, fb1, dst1, wfa1⟩
      simpa [hres] using h1
    | tick =>
      simp only [runStep]
      by_cases h2 : (updateWake st).frameBuffer = []
      · simpa [h2] using h1
      · rcases hres : writeWithRateLimit cfg wfail nows false
            (updateWake st).dst (updateWake st).wfa
            (updateWake st).frameBuffer with ⟨dst1, wfa1, e1⟩
        cases e1 <;> simpa [h2, hres] using h1

/-- C4 witness: the amended release condition at a concrete queue whose head
is due strictly before `now = 5`. -/
theorem release_pass_strictly_due_witness :
    (processReadyChunks cfgZero (fun _ => false) (fun _ => 0) false 5
      [⟨[1], 3⟩, ⟨[2], 9⟩] [] ⟨[], 0⟩ 0).1
      = [⟨[1], 3⟩, ⟨[2], 9⟩].dropWhile (fun c => decide (c.dueTime < 5)) :=
  (release_pass_strictly_due cfgZero (fun _ => false) (fun _ => 0)
    (fun _ _ => 0) 5 [⟨[1], 3⟩, ⟨[2], 9⟩] [] ⟨[], 0⟩ 0 (fun _ => rfl)).1

/-- C5 counterexample: with `jitter = 2` every draw the library can return
(`Int63n (2*jitter)` lands in `[0, 4)`) yields a jitter value different from
`+jitter = 2`: the interval is not closed on the right, `+jitter` is
unattainable. -/
theorem jitter_plus_bound_unattainable :
    ((List.range 4).all fun r =>
      decide ((randomJitter 2 (fun _ _ => (r : Int)) 0).1 ≠ 2)) = true := by
  decide

/-- C5 (amended): for every input buffer the jitter `j` is `r - jitter` for a
draw `r` uniform on `[0, 2*jitter)`, hence `j` ranges exactly (and, the map
being injective on draws, uniformly) over the half-open interval
`[-jitter, +jitter)` — `+jitter` is NOT attainable; when `jitter = 0`,
`j = 0` and no draw is consumed; the effective delay is
`max(0, delay + j)` and the chunk's due time is `now()` plus that total. -/
theorem jitter_distribution (cfg : ShaperConfig) (rng : Nat → Int → Int)
    (i : Nat) (hj : 0 < cfg.jitter) :
    (∀ r : Int, 0 ≤ r → r < 2 * cfg.jitter →
      -cfg.jitter ≤ (randomJitter cfg.jitter (fun _ _ => r) i).1 ∧
      (randomJitter cfg.jitter (fun _ _ => r) i).1 < cfg.jitter) ∧
    (∀ j : Int, -cfg.jitter ≤ j → j < cfg.jitter →
      ∃ r : Int, 0 ≤ r ∧ r < 2 * cfg.jitter ∧
        (randomJitter cfg.jitter (fun _ _ => r) i).1 = j) ∧
    (∀ r1 r2 : Int, (randomJitter cfg.jitter (fun _ _ => r1) i).1
        = (randomJitter cfg.jitter (fun _ _ => r2) i).1 → r1 = r2) ∧
    (∀ d : Nat → Int → Int, randomJitter 0 d i = (0, i)) ∧
    (∀ (wfail : Nat → Bool) (nows : Nat → Int) (st : RunState)
        (now : Int) (data : Buf),
      (runStep cfg wfail nows rng st (Event.read now data)).1.queue
        = st.queue ++ [⟨data, now + max 0 (cfg.delay +
            (randomJitter cfg.jitter rng st.rngIdx).1)⟩]) := by
  have hne : cfg.jitter ≠ 0 := by omega
  refine ⟨?_, ?_, ?_, ?_, ?_⟩
  · intro r h0 h2
    simp only [randomJitter, if_neg hne]
    omega
  · intro j hlo hhi
    refine ⟨j + cfg.jitter, by omega, by omega, ?_⟩
    simp only [randomJitter, if_neg hne]
    omega
  · intro r1 r2 h
    simp only [randomJitter, if_neg hne] at h
    omega
  · intro d
    simp [randomJitter]
  · intro wfail nows st now data
    simp [runStep, updateWake_queue, updateWake_rngIdx]

/-- C5 witness: at `jitter = 2` the draw `r = 1` yields a jitter value inside
`[-2, 2)`. -/
theorem jitter_distribution_witness :
    -2 ≤ (randomJitter 2 (fun _ _ => (1 : Int)) 0).1 ∧
    (randomJitter 2 (fun _ _ => (1 : Int)) 0).1 < 2 :=
  (jitter_distribution cfgJ (fun _ _ => 0) 0 (by decide)).1 1
    (by decide) (by decide)

/-- C3 (code-bug evaluation): `frame_time = 0`, `rate = 0`; the single read
buffer `[7]` becomes due and the release pass attempts the destination
write, which fails (the failure oracle fails attempt 0).  The error is
swallowed (shaper.go lines 245-248): `Run` ends with EOF, drains an empty
queue and returns success — the final trace shows one failed attempt, no
successful writes, and result `ok` instead of the claimed propagated write
error. -/
theorem release_pass_write_error_swallowed :
    runShaper cfgZero (fun i => i == 0) (fun _ => 0) (fun _ _ => 0) 0
      [Event.read 0 [7], Event.wake 1] Ending.eof false
      = (⟨[], 1⟩, RunRes.ok) := by decide

/-- C9: seeded determinism — with `seed ≠ 0` the wall clock does not enter
the seed selection, so two runs over the same config, schedule and inputs
(differing only in the wall-clock value that would seed a zero-seed run)
produce identical destination traces, results, and intermediate states
(hence identical jitter and due-time computations). -/
theorem seeded_determinism (cfg : ShaperConfig) (wfail : Nat → Bool)
    (nows : Nat → Int) (wfa0 : Int) (events : List Event) (ending : Ending)
    (b : Bool) (st : RunState) (t1 t2 : Int) (hs : cfg.seed ≠ 0) :
    runShaper cfg wfail nows (mkRng (effectiveSeed cfg.seed t1)) wfa0 events
        ending b
      = runShaper cfg wfail nows (mkRng (effectiveSeed cfg.seed t2)) wfa0
          events ending b ∧
    runEvents cfg wfail nows (mkRng (effectiveSeed cfg.seed t1)) st events
      = runEvents cfg wfail nows (mkRng (effectiveSeed cfg.seed t2)) st
          events := by
  have h : ∀ t : Int, effectiveSeed cfg.seed t = cfg.seed :=
    fun t => if_neg hs
  rw [h t1, h t2]
  exact ⟨rfl, rfl⟩

/-- C9 witness: a seeded (`seed = 42`, jitter on) run gives the same outcome
for two different wall-clock values. -/
theorem seeded_determinism_witness :
    runShaper cfgSeeded (fun _ => false) (fun _ => 0)
        (mkRng (effectiveSeed 42 0)) 0 [Event.read 0 [7], Event.wake 99]
        Ending.eof false
      = runShaper cfgSeeded (fun _ => false) (fun _ => 0)
          (mkRng (effectiveSeed 42 5)) 0 [Event.read 0 [7], Event.wake 99]
          Ending.eof false :=
  (seeded_determinism cfgSeeded (fun _ => false) (fun _ => 0) 0
    [Event.read 0 [7], Event.wake 99] Ending.eof false (initState 0) 0 5
    (by decide)).1

end Ttylag

namespace Ttylag

/-- C1: byte preservation and order — for every config and event schedule, if
the run completes successfully (clean EOF followed by the drain, all
destination writes succeeding), the concatenation of all writes to the
destination equals the concatenation of the buffers read from the source, in
the exact order they were read.  (`0 ≤ burst` is the config's documented
domain; with a negative configured burst and an active token bucket the Go
write loop would not terminate at all.) -/
theorem run_byte_preservation (cfg : ShaperConfig) (wfail : Nat → Bool)
    (nows : Nat → Int) (rng : Nat → Int → Int) (wfa0 : Int)
    (events : List Event) (cancelAtEof : Bool)
    (hw : ∀ i, wfail i = false) (hb : 0 ≤ cfg.burst) :
    (runShaper cfg wfail nows rng wfa0 events Ending.eof cancelAtEof).2
      = RunRes.ok ∧
    (runShaper cfg wfail nows rng wfa0 events Ending.eof
      cancelAtEof).1.writes.flatten = readBytes events := by
  obtain ⟨st', heq, hinv, hfb', -⟩ :=
    runEvents_ok cfg wfail nows rng hw events (initState wfa0) (fun _ => rfl)
  obtain ⟨W, a', wfa', hdq, hflat, -, -⟩ :=
    drainLoop_ok cfg wfail nows hw st'.queue st'.frameBuffer st'.dst st'.wfa
  have hrs : runShaper cfg wfail nows rng wfa0 events Ending.eof cancelAtEof
      = (⟨st'.dst.writes ++ W, a'⟩, RunRes.ok) := by
    simp only [runShaper, heq, drainQueue, hdq]
  rw [hrs]
  refine ⟨rfl, ?_⟩
  simp only [List.flatten_append, hflat]
  simp only [initState, List.flatten_nil, List.map_nil, List.nil_append,
    List.append_nil] at hinv
  by_cases hft : 0 < cfg.frameTime
  · simp only [if_pos hft]
    rw [← List.append_assoc]
    exact hinv
  · have h0 : st'.frameBuffer = [] := hfb' (by omega)
    simp only [if_neg hft, h0, List.append_nil]
    simp only [h0, List.append_nil] at hinv
    exact hinv

/-- C1 witness: a delayed 3-byte read, released by a wake event, survives the
run byte for byte. -/
theorem run_byte_preservation_witness :
    (runShaper cfgD (fun _ => false) (fun _ => 0) (fun _ _ => 0) 0
      [Event.read 0 [1, 2, 3], Event.wake 10] Ending.eof false).2
      = RunRes.ok ∧
    (runShaper cfgD (fun _ => false) (fun _ => 0) (fun _ _ => 0) 0
      [Event.read 0 [1, 2, 3], Event.wake 10] Ending.eof
      false).1.writes.flatten
      = readBytes [Event.read 0 [1, 2, 3], Event.wake 10] :=
  run_byte_preservation cfgD (fun _ => false) (fun _ => 0) (fun _ _ => 0) 0
    [Event.read 0 [1, 2, 3], Event.wake 10] false (fun _ => rfl) (by decide)

/-- C2: drain on clean EOF — when the source closes cleanly, the run enters
the drain pass, whose outcome ignores the external cancellation state (the
Go code replaces the passed context with `context.Background()`): the run's
result is the same whether or not cancellation fired together with EOF; the
drain runs to completion, writing each remaining queued chunk in enqueue
order through stages 2-4 and finally flushing any residual frame buffer, so
no queued or framed bytes are lost. -/
theorem drain_on_eof (cfg : ShaperConfig) (wfail : Nat → Bool)
    (nows : Nat → Int) (rng : Nat → Int → Int) (wfa0 : Int)
    (events : List Event) (q : List DelayedChunk) (fb : Buf) (dst : Dest)
    (wfa : Int) (hw : ∀ i, wfail i = false) (hb : 0 ≤ cfg.burst) :
    (∀ b1 b2 : Bool,
      runShaper cfg wfail nows rng wfa0 events Ending.eof b1
        = runShaper cfg wfail nows rng wfa0 events Ending.eof b2) ∧
    (∀ b : Bool, ∃ (W : List Buf) (a' : Nat) (wfa' : Int),
      drainQueue cfg wfail nows b q fb dst wfa
        = (⟨dst.writes ++ W, a'⟩, wfa', none) ∧
      W.flatten = (if 0 < cfg.frameTime then
          fb ++ (q.map DelayedChunk.data).flatten
        else (q.map DelayedChunk.data).flatten ++ fb)) ∧
    (∀ b : Bool,
      (runShaper cfg wfail nows rng wfa0 events Ending.eof b).2
        = RunRes.ok) := by
  refine ⟨?_, ?_, ?_⟩
  · intro b1 b2
    cases hre : runEvents cfg wfail nows rng (initState wfa0) events with
    | mk st e =>
      cases e with
      | none => simp only [runShaper, hre, drainQueue]
      | some w => simp only [runShaper, hre]
  · intro b
    obtain ⟨W, a', wfa', h1, h2, -, -⟩ :=
      drainLoop_ok cfg wfail nows hw q fb dst wfa
    exact ⟨W, a', wfa', h1, h2⟩
  · intro b
    obtain ⟨st', heq, -, -, -⟩ :=
      runEvents_ok cfg wfail nows rng hw events (initState wfa0)
        (fun _ => rfl)
    obtain ⟨W, a', wfa', hdq, -, -, -⟩ :=
      drainLoop_ok cfg wfail nows hw st'.queue st'.frameBuffer st'.dst
        st'.wfa
    simp only [runShaper, heq, drainQueue, hdq]

/-- C2 witness: a drain over a two-chunk queue with no framing writes exactly
the queued bytes, independently of the cancellation flag. -/
theorem drain_on_eof_witness :
    ∃ (W : List Buf) (a' : Nat) (wfa' : Int),
      drainQueue cfgD (fun _ => false) (fun _ => 0) true
          [⟨[1], 3⟩, ⟨[2], 9⟩] [] ⟨[], 0⟩ 0
        = (⟨([] : List Buf) ++ W, a'⟩, wfa', none) ∧
      W.flatten = (if (0 : Int) < 0 then
          [] ++ ([⟨[1], 3⟩, ⟨[2], 9⟩].map DelayedChunk.data).flatten
        else ([⟨[1], 3⟩, ⟨[2], 9⟩].map DelayedChunk.data).flatten ++ []) :=
  ((drain_on_eof cfgD (fun _ => false) (fun _ => 0) (fun _ _ => 0) 0 []
    [⟨[1], 3⟩, ⟨[2], 9⟩] [] ⟨[], 0⟩ 0 (fun _ => rfl) (by decide)).2.1) true

/-- C7: serial-mode invariant — with `serial_mode` and `rate > 0`, every
write the whole run makes to the destination is exactly one byte; a
rate-limited write of a buffer makes one single-byte write per input byte,
and `wire_free_at` evolves per transmitted byte by exactly
`wireStep bt w now = max w now + bt` with `bt = byteTime rate` — clamped
forward to `now()` after an idle gap, advancing by `byteTime`, and
monotonically non-decreasing since `byteTime ≥ 0`. -/
theorem serial_mode_invariant (cfg : ShaperConfig) (wfail : Nat → Bool)
    (nows : Nat → Int) (rng : Nat → Int → Int) (wfa0 : Int)
    (events : List Event) (ending : Ending) (b : Bool) (dst : Dest)
    (wfa : Int) (data : Buf) (hs : cfg.serialMode = true) (hr : 0 < cfg.rate)
    (hw : ∀ i, wfail i = false) :
    (∀ w ∈ (runShaper cfg wfail nows rng wfa0 events ending b).1.writes,
      w.length = 1) ∧
    writeWithRateLimit cfg wfail nows false dst wfa data
      = (⟨dst.writes ++ data.map (fun x => [x]),
          dst.attempts + data.length⟩,
         wfaRun (byteTime cfg.rate) nows dst.attempts wfa data.length,
         none) ∧
    (∀ w now : Int, w ≤ wireStep (byteTime cfg.rate) w now ∧
      wireStep (byteTime cfg.rate) w now = max w now + byteTime cfg.rate) ∧
    wfa ≤ wfaRun (byteTime cfg.rate) nows dst.attempts wfa data.length := by
  have hr0 : cfg.rate ≠ 0 := by omega
  have hbt : 0 ≤ byteTime cfg.rate :=
    Int.tdiv_nonneg (by norm_num) (le_of_lt hr)
  obtain ⟨st', heq, -, hfb', W, hwr, hserW, -⟩ :=
    runEvents_ok cfg wfail nows rng hw events (initState wfa0) (fun _ => rfl)
  simp only [initState, List.nil_append] at hwr
  refine ⟨?_, ?_, ?_, ?_⟩
  · cases ending with
    | eof =>
      obtain ⟨W2, a', wfa', hdq, -, hser2, -⟩ :=
        drainLoop_ok cfg wfail nows hw st'.queue st'.frameBuffer st'.dst
          st'.wfa
      intro w hwmem
      have hrs : (runShaper cfg wfail nows rng wfa0 events Ending.eof b).1
          = ⟨st'.dst.writes ++ W2, a'⟩ := by
        simp only [runShaper, heq, drainQueue, hdq]
      rw [hrs, hwr] at hwmem
      simp only [List.mem_append] at hwmem
      rcases hwmem with h | h
      · exact hserW hs hr0 w h
      · exact hser2 hs hr0 w h
    | cancelled =>
      intro w hwmem
      have hrs : (runShaper cfg wfail nows rng wfa0 events Ending.cancelled
          b).1 = st'.dst := by
        simp only [runShaper, heq]
      rw [hrs, hwr] at hwmem
      exact hserW hs hr0 w hwmem
    | readError =>
      intro w hwmem
      have hrs : (runShaper cfg wfail nows rng wfa0 events Ending.readError
          b).1 = st'.dst := by
        simp only [runShaper, heq]
      rw [hrs, hwr] at hwmem
      exact hserW hs hr0 w hwmem
  · have hbranch : writeWithRateLimit cfg wfail nows false dst wfa data
        = writeWireSerial wfail nows (byteTime cfg.rate) false dst wfa
            data := by
      simp [writeWithRateLimit, hr0, hs]
    rw [hbranch]
    exact writeWireSerial_ok wfail nows _ hw data dst wfa
  · intro w now
    refine ⟨?_, rfl⟩
    have := le_max_left w now
    simp only [wireStep]
    omega
  · exact wfaRun_mono (byteTime cfg.rate) nows hbt data.length dst.attempts
      wfa

/-- C7 witness: a serial-mode rate-limited write of two bytes performs two
single-byte writes. -/
theorem serial_mode_invariant_witness :
    writeWithRateLimit cfgS (fun _ => false) (fun _ => 0) false ⟨[], 0⟩ 0
        [9, 9]
      = (⟨[[9], [9]], 2⟩,
         wfaRun (byteTime cfgS.rate) (fun _ => 0) 0 0 2, none) := by
  have h := (serial_mode_invariant cfgS (fun _ => false) (fun _ => 0)
    (fun _ _ => 0) 0 [] Ending.eof false ⟨[], 0⟩ 0 [9, 9] rfl (by decide)
    (fun _ => rfl)).2.1
  simpa using h

/-- C8: chunking write-size bound — if `chunk_size = C > 0` and
`frame_time = 0`, every write the run makes to the destination has length
at most `C`; the splitter cuts an input longer than `C` into pieces of
length exactly `C` except possibly the last (the remainder, since the
pieces concatenate back to the input); and with `C = 3` the 11-byte input
"hello world" yields exactly the four chunks "hel", "lo ", "wor", "ld". -/
theorem chunking_write_size_bound (cfg : ShaperConfig) (wfail : Nat → Bool)
    (nows : Nat → Int) (rng : Nat → Int → Int) (wfa0 : Int)
    (events : List Event) (ending : Ending) (b : Bool) (d : Buf)
    (hc : 0 < cfg.chunkSize) (hf : cfg.frameTime = 0)
    (hw : ∀ i, wfail i = false) (hb : 0 ≤ cfg.burst) :
    (∀ w ∈ (runShaper cfg wfail nows rng wfa0 events ending b).1.writes,
      (w.length : Int) ≤ cfg.chunkSize) ∧
    (cfg.chunkSize < (d.length : Int) →
      ∀ p ∈ (splitChunks cfg.chunkSize d).dropLast,
        (p.length : Int) = cfg.chunkSize) ∧
    (splitChunks cfg.chunkSize d).flatten = d ∧
    splitChunks 3 helloWorld
      = [[104, 101, 108], [108, 111, 32], [119, 111, 114], [108, 100]] := by
  have hft0 : cfg.frameTime ≤ 0 := by omega
  obtain ⟨st', heq, -, hfb', W, hwr, -, hchunkW⟩ :=
    runEvents_ok cfg wfail nows rng hw events (initState wfa0) (fun _ => rfl)
  simp only [initState, List.nil_append] at hwr
  refine ⟨?_, ?_, splitChunks_flatten _ _, by decide⟩
  · cases ending with
    | eof =>
      obtain ⟨W2, a', wfa', hdq, -, -, hchunk2⟩ :=
        drainLoop_ok cfg wfail nows hw st'.queue st'.frameBuffer st'.dst
          st'.wfa
      intro w hwmem
      have hrs : (runShaper cfg wfail nows rng wfa0 events Ending.eof b).1
          = ⟨st'.dst.writes ++ W2, a'⟩ := by
        simp only [runShaper, heq, drainQueue, hdq]
      rw [hrs, hwr] at hwmem
      simp only [List.mem_append] at hwmem
      rcases hwmem with h | h
      · exact hchunkW hc hft0 w h
      · exact hchunk2 hc hft0 (hfb' hft0) w h
    | cancelled =>
      intro w hwmem
      have hrs : (runShaper cfg wfail nows rng wfa0 events Ending.cancelled
          b).1 = st'.dst := by
        simp only [runShaper, heq]
      rw [hrs, hwr] at hwmem
      exact hchunkW hc hft0 w hwmem
    | readError =>
      intro w hwmem
      have hrs : (runShaper cfg wfail nows rng wfa0 events Ending.readError
          b).1 = st'.dst := by
        simp only [runShaper, heq]
      rw [hrs, hwr] at hwmem
      exact hchunkW hc hft0 w hwmem
  · intro hlong p hp
    exact splitChunks_dropLast cfg.chunkSize hc d p hlong hp

/-- C8 witness: the concrete "hello world" split under `chunk_size = 3`,
obtained from the claim at the chunking config. -/
theorem chunking_write_size_bound_witness :
    splitChunks 3 helloWorld
      = [[104, 101, 108], [108, 111, 32], [119, 111, 114], [108, 100]] :=
  (chunking_write_size_bound cfgC (fun _ => false) (fun _ => 0)
    (fun _ _ => 0) 0 [] Ending.eof false helloWorld (by decide) rfl
    (fun _ => rfl) (by decide)).2.2.2

end Ttylag
